import Mathlib

/-!
Verification of the configuration-resolution and update-check layer
(`lib/config.js`, `lib/updates.js`) of the lando CLI.

The JavaScript sources are shallowly embedded: JS plain values are the
inductive `JsVal`, JS objects are association lists in insertion order,
the lodash helpers used by the source (`mergeWith` with the array
customizer, `uniq`, `includes`, `trimStart`, `camelCase`, `startsWith`,
`find`, `get`, `trimStart`) are modelled by executable Lean functions
that follow the published lodash semantics (restricted to ASCII data
where lodash performs unicode word splitting), and the `semver` and
`js-yaml`/`fs` collaborators are modelled respectively by an executable
comparison algorithm following the node-semver implementation and by an
abstract filesystem parameter.

Numbers that the source manipulates are exact integers
(`Math.floor(Date.now())`, version components, the 24h freshness
window), so `Int`/`Nat` are used directly; the one place where a string
is coerced to a number (the `expires` comparison of `fetch`) models the
full `ToNumber` string grammar, keeping the coerced value as an exact
mantissa/decimal-exponent pair rather than a rounded double.
-/

namespace Lando

/-! ## ASCII character and string helpers shared by the lodash models -/

/-- Test for an ASCII lowercase letter. -/
def isLowerAscii (c : Char) : Bool := 'a' ≤ c && c ≤ 'z'

/-- Test for an ASCII uppercase letter. -/
def isUpperAscii (c : Char) : Bool := 'A' ≤ c && c ≤ 'Z'

/-- Test for an ASCII digit. -/
def isDigitAscii (c : Char) : Bool := '0' ≤ c && c ≤ '9'

/-- Lowercase an ASCII letter, leaving other characters unchanged. -/
def lowerChar (c : Char) : Char :=
  if isUpperAscii c then Char.ofNat (c.toNat + 32) else c

/-- Uppercase an ASCII letter, leaving other characters unchanged. -/
def upperChar (c : Char) : Char :=
  if isLowerAscii c then Char.ofNat (c.toNat - 32) else c

/-- Boolean test that `pre` is a prefix of `l` (JS `String.prototype.startsWith`,
also the behaviour of `_.startsWith(l, pre)`). -/
def startsList : List Char → List Char → Bool
  | [], _ => true
  | _ :: _, [] => false
  | a :: as, b :: bs => a == b && startsList as bs

/-- Boolean test that `needle` occurs contiguously inside `hay`
(JS `String.prototype.includes`, also `_.includes(hay, needle)` on strings). -/
def infixList (needle : List Char) : List Char → Bool
  | [] => needle == []
  | b :: bs => startsList needle (b :: bs) || infixList needle bs

/-- Model of `_.includes(s, sub)` on strings: substring containment. -/
def includesSub (s sub : String) : Bool := infixList sub.toList s.toList

/-- Drop the longest leading run of characters that belong to `chars`. -/
def dropWhileIn : List Char → List Char → List Char
  | [], _ => []
  | c :: rest, chars => if chars.contains c then dropWhileIn rest chars else c :: rest

/-- Model of `_.trimStart(s, chars)`: the second argument is treated as a SET of
characters, and the longest leading run of characters drawn from that set is
removed.  Note that this is not removal of the string `chars` as a prefix. -/
def trimStartChars (s chars : String) : String := ⟨dropWhileIn s.toList chars.toList⟩

/-- Remove the first occurrence of `sub` from `s` (the string `s` is returned
unchanged when `sub` does not occur).  This is the operation the specification
describes with the words "removing the first occurrence of `prefix`"; it is
used to compare the specified behaviour with the `_.trimStart` call the source
actually performs. -/
def removeFirstSub (s sub : String) : String :=
  ⟨removeFirstAux s.toList sub.toList⟩
where
  /-- List-level worker: remove the first contiguous occurrence of `sub`. -/
  removeFirstAux : List Char → List Char → List Char
    | [], _ => []
    | c :: rest, sub =>
      if startsList sub (c :: rest) then (c :: rest).drop sub.length
      else c :: removeFirstAux rest sub

/-! ## Model of `_.camelCase` (ASCII fragment)

Lodash splits a string into words (runs of lowercase letters, runs of
uppercase letters, runs of digits, with a run of at least two uppercase
letters followed by a lowercase letter splitting before its last letter),
drops everything else, lowercases every word and capitalises every word
after the first.  The ordinal/contraction/deburr refinements of lodash
concern data outside the ASCII letters-and-digits fragment used here. -/

/-- Character classes relevant to lodash word splitting. -/
inductive WClass where
  | lower
  | upper
  | digit
deriving DecidableEq

/-- Classify a character, `none` meaning a separator. -/
def classOf (c : Char) : Option WClass :=
  if isLowerAscii c then some .lower
  else if isUpperAscii c then some .upper
  else if isDigitAscii c then some .digit
  else none

/-- Word-splitting state machine.  The second argument carries the class of the
word being built together with its characters in reverse order. -/
def wordsGo : List Char → Option (WClass × List Char) → List (List Char)
  | [], none => []
  | [], some (_, w) => [w.reverse]
  | c :: rest, none =>
    match classOf c with
    | none => wordsGo rest none
    | some cl => wordsGo rest (some (cl, [c]))
  | c :: rest, some (cl, w) =>
    match classOf c with
    | none => w.reverse :: wordsGo rest none
    | some cl' =>
      if cl' = cl then wordsGo rest (some (cl, c :: w))
      else if cl = .upper ∧ cl' = .lower then
        match w with
        | [u] => wordsGo rest (some (.lower, [c, u]))
        | u :: f :: front => (f :: front).reverse :: wordsGo rest (some (.lower, [c, u]))
        | [] => wordsGo rest (some (.lower, [c]))
      else w.reverse :: wordsGo rest (some (cl', [c]))

/-- Model of `_.words` on ASCII data. -/
def asciiWords (s : String) : List (List Char) := wordsGo s.toList none

/-- Model of `_.camelCase` on ASCII data: first word lowercased, later words
lowercased and then capitalised, separators dropped. -/
def camelCase (s : String) : String :=
  match asciiWords s with
  | [] => ""
  | w :: ws =>
    ⟨w.map lowerChar ++
      (ws.map (fun w' =>
        match w'.map lowerChar with
        | [] => []
        | c :: cs => upperChar c :: cs)).flatten⟩

/-! ## JS values and objects

`lib/config.js` manipulates plain JSON-like data (parsed YAML documents and
the accumulator object of `loadFiles`).  Objects are association lists in
property-insertion order, which is the enumeration order JS guarantees for
the string keys handled here. -/

/-- Plain JS values. -/
inductive JsVal where
  | undef
  | null
  | bool (b : Bool)
  | num (n : Int)
  | str (s : String)
  | arr (xs : List JsVal)
  | obj (fields : List (String × JsVal))

/-- Fields of a JS object, in insertion order. -/
abbrev Field := String × JsVal

/-- Property read: value of the first field named `k`. -/
def lookupField : List Field → String → Option JsVal
  | [], _ => none
  | (k', v) :: rest, k => if k' = k then some v else lookupField rest k

/-- Property write on an existing key: replace the value of the first field
named `k`, keeping its position (JS assignment to an existing property). -/
def setField : List Field → String → JsVal → List Field
  | [], _, _ => []
  | (k', v') :: rest, k, v =>
    if k' = k then (k', v) :: rest else (k', v') :: setField rest k v

/-- Key list of an object, in order. -/
def keysOf (o : List Field) : List String := o.map Prod.fst

/-- SameValueZero equality as used by `_.uniq`.  Primitive values compare by
value.  Arrays and objects compare by reference in JS; the embedding works
with YAML-parsed data in which distinct composite values are distinct
references, so composites are never identified. -/
def sameValueZero : JsVal → JsVal → Bool
  | .undef, .undef => true
  | .null, .null => true
  | .bool a, .bool b => a == b
  | .num a, .num b => a == b
  | .str a, .str b => a == b
  | _, _ => false

/-- Model of `_.uniq`: keep the first occurrence of each element, comparing
with SameValueZero. -/
def uniqJs (l : List JsVal) : List JsVal :=
  l.foldl (fun acc x => if acc.any (fun y => sameValueZero y x) then acc else acc ++ [x]) []

/-- Elements contributed by `f` to `s.concat(f)`: an array argument of
`Array.prototype.concat` is spread one level, anything else is appended as a
single element. -/
def toElems : JsVal → List JsVal
  | .arr xs => xs
  | v => [v]

mutual

/-- Per-key merge of `exports.merge` in `lib/config.js`, which is
`_.mergeWith(old, fresh, customizer)` with the customizer returning
`_.uniq(s.concat(f))` whenever the destination value `s` is an array.
When the customizer yields nothing, lodash merges plain objects
recursively, keeps the destination value when the source value is
`undefined`, and otherwise lets the source value win. -/
def mergeVal (s f : JsVal) : JsVal :=
  match s with
  | .arr xs => .arr (uniqJs (xs ++ toElems f))
  | .obj o =>
    match f with
    | .obj p => .obj (mergeFields o p)
    | .undef => .obj o
    | f' => f'
  | s' =>
    match f with
    | .undef => s'
    | f' => f'
termination_by structural f

/-- Object-level merge: walk the fields of the source object `p` in order,
combining each with the field of the same name in the accumulator (or
appending it when absent). -/
def mergeFields (o : List Field) : List Field → List Field
  | [] => o
  | (k, f) :: rest =>
    mergeFields
      (match lookupField o k with
       | some s => setField o k (mergeVal s f)
       | none => o ++ [(k, f)])
      rest
termination_by structural p => p

end

/-- Top-level `exports.merge(old, fresh)` on two configuration objects. -/
def merge (old fresh : List Field) : List Field := mergeFields old fresh

/-- Observable value held by the first argument of `exports.merge` after the
call.  Lodash `_.mergeWith(object, source, customizer)` merges into `object`
in place and returns it, so after the call the base object holds the merged
result (the return value aliases the base). -/
def mergeBaseAfter (old fresh : List Field) : List Field := mergeFields old fresh

/-- Observable value held by the second argument of `exports.merge` after the
call: lodash does not mutate its source argument. -/
def mergeOverlayAfter (_old fresh : List Field) : List Field := fresh

/-! ## `exports.loadFiles`

The filesystem and the YAML parser are collaborators: they are a parameter
mapping a path to `none` when `fs.existsSync` is false, and otherwise to the
outcome of `yaml.safeLoad` on the file contents (a parsed top-level mapping,
or a parse error which `loadFiles` lets escape). -/

/-- Outcome of probing one path: absent, parse failure, or a parsed document. -/
abbrev FileSystem := String → Option (Except String (List Field))

/-- Worker for `loadFiles`: fold the files onto the accumulator `conf`.
A thrown YAML parse error aborts the `_.forEach` loop and propagates, which
the embedding renders as `Except.error`. -/
def loadFilesFrom (fs : FileSystem) (conf : List Field) :
    List String → Except String (List Field)
  | [] => .ok conf
  | file :: rest =>
    match fs file with
    | none => loadFilesFrom fs conf rest
    | some (.ok doc) => loadFilesFrom fs (merge conf doc) rest
    | some (.error e) => .error e

/-- Model of `exports.loadFiles(files)`: start from the empty object and merge
every existing file on top, in order. -/
def loadFiles (fs : FileSystem) (files : List String) : Except String (List Field) :=
  loadFilesFrom fs [] files

/-! ## `exports.loadEnvs` -/

/-- JS object assignment used while building `envConfig`: overwrite the first
field with the given key in place, or append a new field. -/
def upsertStr (m : List (String × String)) (k v : String) : List (String × String) :=
  match m with
  | [] => [(k, v)]
  | (k', v') :: rest =>
    if k' = k then (k', v) :: rest else (k', v') :: upsertStr rest k v

/-- Model of `exports.loadEnvs(prefix)` over an explicit environment (an
ordered list of name/value pairs standing for `process.env`): every variable
whose name contains `pfx` as a substring contributes the key
`_.camelCase(_.trimStart(name, pfx))` with the raw string value. -/
def loadEnvs (env : List (String × String)) (pfx : String) : List (String × String) :=
  env.foldl
    (fun acc kv =>
      if includesSub kv.1 pfx then
        upsertStr acc (camelCase (trimStartChars kv.1 pfx)) kv.2
      else acc)
    []

/-- Statement of the amended selection/mapping rule for `loadEnvs`: first
select the variables whose name contains `pfx`, then fold their
camel-cased, set-trimmed keys into the result object. -/
def loadEnvsFiltered (env : List (String × String)) (pfx : String) :
    List (String × String) :=
  (env.filter (fun kv => includesSub kv.1 pfx)).foldl
    (fun acc kv => upsertStr acc (camelCase (trimStartChars kv.1 pfx)) kv.2)
    []

/-! ## `exports.updatePath`

The search-path environment variable is passed explicitly (its pre-call
value), together with the OS path-list delimiter; the function returns the
post-call value of the variable, which the source also returns. -/

/-- Model of `exports.updatePath(dir)` acting on the current value `pv` of the
search-path variable: prepend `dir` with the delimiter unless `pv` already
starts with `dir`. -/
def updatePath (delim dir pv : String) : String :=
  if startsList dir.toList pv.toList then pv else dir ++ delim ++ pv

/-! ## `lib/updates.js`: `fetch`

The cached record read back by `fetch` comes from an external store, so its
`expires` property may hold anything; `EVal` covers the primitive values such
a record can carry, and the comparison `data.expires >= Math.floor(Date.now())`
follows the JS relational semantics: the operand is coerced to a number
(`none` standing for NaN, which makes the comparison false). -/

/-- Primitive value held by the `expires` property of a cached record. -/
inductive EVal where
  | undef
  | null
  | num (n : Int)
  | str (s : String)
  | bool (b : Bool)

/-- Whitespace trimmed by the JS `ToNumber` string grammar: the ASCII
whitespace characters, NBSP, the Unicode space separators, the line
terminators and the BOM. -/
def isJsSpace (c : Char) : Bool :=
  c == ' ' || c == '\t' || c == '\n' || c == '\r' ||
  c == Char.ofNat 0x0B || c == Char.ofNat 0x0C || c == Char.ofNat 0xA0 ||
  c == Char.ofNat 0x1680 || (Char.ofNat 0x2000 ≤ c && c ≤ Char.ofNat 0x200A) ||
  c == Char.ofNat 0x2028 || c == Char.ofNat 0x2029 || c == Char.ofNat 0x202F ||
  c == Char.ofNat 0x205F || c == Char.ofNat 0x3000 || c == Char.ofNat 0xFEFF

/-- Result of a successful JS numeric coercion, as used by the relational
comparison: an infinity, or a finite value represented exactly as
`mant * 10 ^ exp10`.  The value of a numeric literal is kept exact; the
rounding of that value to the nearest double is not modelled — rounding
could change the comparison against an integer only when the exact and the
rounded value straddle that integer, a sub-ULP boundary no statement below
relies on. -/
inductive JsNum where
  | posInf
  | negInf
  | finite (mant : Int) (exp10 : Int)

/-- Negation of a JS number (the effect of a leading minus sign). -/
def jsNumNeg : JsNum → JsNum
  | .posInf => .negInf
  | .negInf => .posInf
  | .finite m e => .finite (-m) e

/-- Value of a decimal digit string. -/
def decDigitsVal (ds : List Char) : Nat :=
  ds.foldl (fun a c => a * 10 + (c.toNat - 48)) 0

/-- ExponentPart of the decimal grammar, required to consume the entire rest
of the literal: the empty rest means exponent 0, otherwise `e` or `E`, an
optional sign and at least one digit. -/
def parseExpPart : List Char → Option Int
  | [] => some 0
  | c :: rest =>
    if c == 'e' || c == 'E' then
      match rest with
      | '+' :: ds =>
        if ds ≠ [] ∧ ds.all isDigitAscii then some (decDigitsVal ds) else none
      | '-' :: ds =>
        if ds ≠ [] ∧ ds.all isDigitAscii then some (-(decDigitsVal ds : Int)) else none
      | ds =>
        if ds ≠ [] ∧ ds.all isDigitAscii then some (decDigitsVal ds) else none
    else none

/-- StrUnsignedDecimalLiteral without its `Infinity` alternative:
`Digits . Digits? ExponentPart?`, `. Digits ExponentPart?` or
`Digits ExponentPart?`, with its exact value as a mantissa/decimal-exponent
pair (the digits around the point form the mantissa, and the fraction length
is subtracted from the exponent). -/
def parseUnsignedDec (cs : List Char) : Option (Int × Int) :=
  let intPart := cs.takeWhile isDigitAscii
  let rest1 := cs.dropWhile isDigitAscii
  match rest1 with
  | '.' :: rest2 =>
    let frac := rest2.takeWhile isDigitAscii
    let rest3 := rest2.dropWhile isDigitAscii
    if intPart = [] ∧ frac = [] then none
    else
      (parseExpPart rest3).map (fun e =>
        ((decDigitsVal (intPart ++ frac) : Int), e - frac.length))
  | rest =>
    if intPart = [] then none
    else (parseExpPart rest).map (fun e => ((decDigitsVal intPart : Int), e))

/-- Digit of a non-decimal radix literal. -/
def radixDigitVal (c : Char) : Option Nat :=
  if isDigitAscii c then some (c.toNat - 48)
  else if 'a' ≤ c && c ≤ 'f' then some (c.toNat - 87)
  else if 'A' ≤ c && c ≤ 'F' then some (c.toNat - 55)
  else none

/-- NonDecimalIntegerLiteral of the `ToNumber` grammar: `0x`/`0X` hex,
`0o`/`0O` octal, `0b`/`0B` binary; never signed, at least one digit, every
digit below the base.  Yields the integer value. -/
def parseRadix : List Char → Option Nat
  | '0' :: x :: ds =>
    let base : Option Nat :=
      if x == 'x' || x == 'X' then some 16
      else if x == 'o' || x == 'O' then some 8
      else if x == 'b' || x == 'B' then some 2
      else none
    base.bind (fun b =>
      if ds = [] then none
      else
        (ds.mapM radixDigitVal).bind (fun vs =>
          if vs.all (· < b) then some (vs.foldl (fun a v => a * b + v) 0)
          else none))
  | _ => none

/-- Body of a StrDecimalLiteral after an optional sign: the literal
`Infinity` or an unsigned decimal literal. -/
def parseSignedPart (cs : List Char) : Option JsNum :=
  if cs = ("Infinity").toList then some .posInf
  else (parseUnsignedDec cs).map (fun p => .finite p.1 p.2)

/-- JS `Number(string)` — the `ToNumber` string grammar: trim JS whitespace
on both ends; an empty remainder is 0; otherwise either a decimal literal
with an optional sign (possibly `Infinity`) or an unsigned non-decimal radix
literal; any other string is NaN (`none`). -/
def strToNumber (s : String) : Option JsNum :=
  let t := ((s.toList.dropWhile isJsSpace).reverse.dropWhile isJsSpace).reverse
  match t with
  | [] => some (.finite 0 0)
  | '+' :: rest => parseSignedPart rest
  | '-' :: rest => (parseSignedPart rest).map jsNumNeg
  | _ =>
    match parseRadix t with
    | some v => some (.finite (v : Int) 0)
    | none => parseSignedPart t

/-- JS `ToNumber` on the primitive values, `none` standing for NaN. -/
def jsToNum : EVal → Option JsNum
  | .undef => none
  | .null => some (.finite 0 0)
  | .num n => some (.finite n 0)
  | .str s => strToNumber s
  | .bool b => some (.finite (if b then 1 else 0) 0)

/-- JS comparison `x >= n` for a primitive `x` against an integer `n`:
coerce `x` to a number; any comparison against NaN is false, the infinities
compare as expected, and a finite value `m * 10 ^ e` compares exactly —
for `e ≥ 0` directly over the integers, and for `e < 0` after multiplying
both sides by the positive factor `10 ^ (-e)`. -/
def jsGE (x : EVal) (n : Int) : Bool :=
  match jsToNum x with
  | none => false
  | some .posInf => true
  | some .negInf => false
  | some (.finite m e) =>
    if 0 ≤ e then decide (n ≤ m * (10 : Int) ^ e.toNat)
    else decide (n * (10 : Int) ^ (-e).toNat ≤ m)

/-- Cached update record as read back by `fetch`. -/
structure CachedRecord where
  expires : EVal

/-- Model of `exports.fetch(data)` at call time `now` (the single
`Math.floor(Date.now())` read the body performs): `true` immediately when no
record was passed, otherwise the negation of `data.expires >= now`. -/
def fetch (now : Int) (data : Option CachedRecord) : Bool :=
  match data with
  | none => true
  | some d => !(jsGE d.expires now)

/-! ## `lib/updates.js`: `refresh`

The GitHub release feed is a collaborator.  A successful call delivers the
release list (the `data` property of the response); any rejection of the
promise chain takes the `.catch` branch.  Each release record carries the
fields the source reads.  `refresh` never rejects: it is a total function
into the update-record shape. -/

/-- Release record of the remote feed (the fields the source reads; the
external interface guarantees their presence). -/
structure Release where
  tag_name : String
  html_url : String
  draft : Bool
  prerelease : Bool

/-- Update record produced by `refresh`. -/
structure UpdateRecord where
  version : String
  url : String
  expires : Int
deriving DecidableEq

/-- Eligibility test of the source:
`release.draft === false && release.prerelease === false`. -/
def eligibleRelease (r : Release) : Bool := r.draft == false && r.prerelease == false

/-- Model of `exports.refresh(version)` at call time `now` against the feed
outcome: on success, pick the first non-draft non-prerelease release and build
the record from it (falling back to `version` and an empty URL when none or
when the feed listing is empty); on any failure, the `.catch` branch builds
the record from `version` alone.  Either way `expires` is `now + 86400000`. -/
def refresh (now : Int) (version : String) (feed : Except Unit (List Release)) :
    UpdateRecord :=
  match feed with
  | .error _ =>
    { version := trimStartChars version ("v"), url := "", expires := now + 86400000 }
  | .ok releases =>
    match releases.find? eligibleRelease with
    | some r =>
      { version := trimStartChars r.tag_name ("v"), url := r.html_url,
        expires := now + 86400000 }
    | none =>
      { version := trimStartChars version ("v"), url := "", expires := now + 86400000 }

/-! ## `lib/updates.js`: `updateAvailable` and the node-semver comparison

`exports.updateAvailable` is `semver.lt(version1, version2)`.  The comparison
algorithm of the node-semver library is embedded: parse both versions (an
invalid version makes `semver.lt` throw, rendered as `none`), compare the
`major.minor.patch` triples numerically, and break ties with the pre-release
identifier rules.  A numeric pre-release identifier at or above
`Number.MAX_SAFE_INTEGER` is kept as a string by the library, which the
parser mirrors. -/

/-- Pre-release identifier: numeric or alphanumeric. -/
inductive PreId where
  | num (n : Nat)
  | alpha (s : List Char)
deriving DecidableEq

/-- Parsed semantic version (build metadata is validated and discarded by the
parser, as it never influences precedence). -/
structure SemVer where
  major : Nat
  minor : Nat
  patch : Nat
  prerelease : List PreId
deriving DecidableEq

/-- Numeric comparison used by `compareIdentifiers` on two numbers. -/
def cmpNat (a b : Nat) : Ordering :=
  if a < b then .lt else if b < a then .gt else .eq

/-- JS string relational comparison (lexicographic by code unit; the
identifier alphabet is ASCII so code units and characters agree). -/
def charsCompare : List Char → List Char → Ordering
  | [], [] => .eq
  | [], _ :: _ => .lt
  | _ :: _, [] => .gt
  | a :: as, b :: bs =>
    if a < b then .lt else if b < a then .gt else charsCompare as bs

/-- node-semver `compareIdentifiers`: two numeric identifiers compare
numerically, a numeric identifier is lower than an alphanumeric one, and two
alphanumeric identifiers compare as JS strings. -/
def comparePreId : PreId → PreId → Ordering
  | .num a, .num b => cmpNat a b
  | .num _, .alpha _ => .lt
  | .alpha _, .num _ => .gt
  | .alpha a, .alpha b => charsCompare a b

/-- Loop of node-semver `comparePre`: compare identifiers position by
position; the version that runs out of identifiers first is lower. -/
def comparePreLists : List PreId → List PreId → Ordering
  | [], [] => .eq
  | _ :: _, [] => .gt
  | [], _ :: _ => .lt
  | a :: as, b :: bs =>
    match comparePreId a b with
    | .eq => comparePreLists as bs
    | o => o

/-- node-semver `comparePre`: a version carrying pre-release identifiers is
lower than the plain version, and two pre-release lists compare by the loop. -/
def comparePre : List PreId → List PreId → Ordering
  | [], [] => .eq
  | _ :: _, [] => .lt
  | [], _ :: _ => .gt
  | a :: as, b :: bs =>
    match comparePreId a b with
    | .eq => comparePreLists as bs
    | o => o

/-- node-semver `compareMain`: major, then minor, then patch. -/
def compareMain (a b : SemVer) : Ordering :=
  (cmpNat a.major b.major).then ((cmpNat a.minor b.minor).then (cmpNat a.patch b.patch))

/-- node-semver `compare`: the main triples, then the pre-release lists. -/
def semverCompare (a b : SemVer) : Ordering :=
  (compareMain a b).then (comparePre a.prerelease b.prerelease)

/-- node-semver `lt`: `compare(a, b) < 0`. -/
def semverLtB (a b : SemVer) : Bool := semverCompare a b == .lt

/-- Largest integer the library accepts as a number
(`Number.MAX_SAFE_INTEGER`). -/
def maxSafeInt : Nat := 9007199254740991

/-- Characters allowed in semver identifiers: `[0-9A-Za-z-]`. -/
def isIdentChar (c : Char) : Bool :=
  isDigitAscii c || isLowerAscii c || isUpperAscii c || c == '-'

/-- The semver `NUMERICIDENTIFIER` production `0|[1-9]\d*` with its value. -/
def parseNumericId : List Char → Option Nat
  | [] => none
  | ['0'] => some 0
  | '0' :: _ :: _ => none
  | cs =>
    if cs.all isDigitAscii then
      some (cs.foldl (fun a c => a * 10 + (c.toNat - 48)) 0)
    else none

/-- One `major`/`minor`/`patch` component: numeric, at most
`Number.MAX_SAFE_INTEGER` (the library throws beyond that). -/
def parseMainNum (cs : List Char) : Option Nat :=
  (parseNumericId cs).bind (fun n => if n ≤ maxSafeInt then some n else none)

/-- One pre-release identifier: a numeric identifier becomes a number when it
is strictly below `Number.MAX_SAFE_INTEGER` and otherwise stays a string; an
identifier with a letter or hyphen stays a string; anything else (an empty
identifier, a leading zero, a character outside the alphabet) is invalid. -/
def parsePreId (cs : List Char) : Option PreId :=
  if cs ≠ [] ∧ cs.all isDigitAscii then
    (parseNumericId cs).bind
      (fun n => if n < maxSafeInt then some (.num n) else some (.alpha cs))
  else if cs ≠ [] ∧ cs.all isIdentChar then some (.alpha cs)
  else none

/-- Validation of the optional build-metadata suffix
`(\+[0-9A-Za-z-]+(\.[0-9A-Za-z-]+)*)?`, received here as the part of the
version starting at the first `+` (empty when there is none). -/
def buildOk : List Char → Bool
  | [] => true
  | '+' :: rest =>
    (rest.splitOn '.').all (fun g => g ≠ [] && g.all isIdentChar)
  | _ => false

/-- Model of the node-semver parser on the fragment reachable from
`semver.lt`: trim surrounding spaces, allow one leading `v`, validate and
drop build metadata, read the dotted main triple and the optional
pre-release identifiers introduced by the first hyphen after the patch
number. -/
def parseSemver (s : String) : Option SemVer :=
  let t := ((s.toList.dropWhile (· = ' ')).reverse.dropWhile (· = ' ')).reverse
  let t := match t with
    | 'v' :: rest => rest
    | other => other
  let core := t.takeWhile (· ≠ '+')
  if buildOk (t.dropWhile (· ≠ '+')) then
    let mainPart := core.takeWhile (· ≠ '-')
    let prePart := core.dropWhile (· ≠ '-')
    match (mainPart.splitOn '.').map parseMainNum with
    | [some ma, some mi, some pa] =>
      match prePart with
      | [] => some ⟨ma, mi, pa, []⟩
      | '-' :: ids =>
        ((ids.splitOn '.').mapM parsePreId).map (fun pre => ⟨ma, mi, pa, pre⟩)
      | _ => none
    | _ => none
  else none

/-- Model of `exports.updateAvailable(version1, version2)`, that is
`semver.lt(version1, version2)`; `none` renders the throw on an invalid
version. -/
def updateAvailable (v1 v2 : String) : Option Bool :=
  match parseSemver v1, parseSemver v2 with
  | some a, some b => some (semverLtB a b)
  | _, _ => none

/-! ## Specification-side ordering for semantic versions

The following definitions transcribe the words of the specification —
"strictly less than under semantic-version ordering (major.minor.patch plus
pre-release precedence rules)" — independently of the comparison algorithm
above, for the refinement statement of the `updateAvailable` claim. -/

/-- Lexicographic strict order on strings of characters. -/
def charsLt : List Char → List Char → Prop
  | _, [] => False
  | [], _ :: _ => True
  | a :: as, b :: bs => a < b ∨ (a = b ∧ charsLt as bs)

/-- Precedence of single pre-release identifiers: numeric identifiers compare
numerically and are lower than alphanumeric ones, alphanumeric identifiers
compare lexically. -/
def preIdLtSpec : PreId → PreId → Prop
  | .num x, .num y => x < y
  | .num _, .alpha _ => True
  | .alpha _, .num _ => False
  | .alpha x, .alpha y => charsLt x y

/-- Precedence of equal-length-agnostic identifier lists: left to right, with
a shorter list that is a prefix of the longer one being lower. -/
def specIdsLt : List PreId → List PreId → Prop
  | _, [] => False
  | [], _ :: _ => True
  | a :: as, b :: bs => preIdLtSpec a b ∨ (a = b ∧ specIdsLt as bs)

/-- Pre-release precedence: a pre-release version is lower than the plain
version with the same main triple, and two pre-release lists compare by
identifiers. -/
def specPreLt : List PreId → List PreId → Prop
  | [], _ => False
  | _ :: _, [] => True
  | a :: as, b :: bs => preIdLtSpec a b ∨ (a = b ∧ specIdsLt as bs)

/-- Strict semantic-version order as the specification words it:
major, then minor, then patch, then pre-release precedence. -/
def specLt (a b : SemVer) : Prop :=
  a.major < b.major ∨
    (a.major = b.major ∧
      (a.minor < b.minor ∨
        (a.minor = b.minor ∧
          (a.patch < b.patch ∨
            (a.patch = b.patch ∧ specPreLt a.prerelease b.prerelease)))))

/-! ## Lemmas about objects and the merge -/

/-- Test for a sequence value. -/
def isArrV : JsVal → Bool
  | .arr _ => true
  | _ => false

/-- Test for an object value. -/
def isObjV : JsVal → Bool
  | .obj _ => true
  | _ => false

/-- Value of the merged object at one key, as a function of the two values at
that key (`none` = key absent). -/
def combineAt : Option JsVal → Option JsVal → Option JsVal
  | some s, some f => some (mergeVal s f)
  | some s, none => some s
  | none, some f => some f
  | none, none => none

theorem keysOf_setField (o : List Field) (k : String) (v : JsVal) :
    keysOf (setField o k v) = keysOf o := by
  induction o with
  | nil => rfl
  | cons kv rest ih =>
    obtain ⟨k', v'⟩ := kv
    by_cases h : k' = k
    · simp [setField, h, keysOf]
    · simp only [setField, if_neg h, keysOf, List.map_cons, List.cons.injEq, true_and]
      simpa [keysOf] using ih

theorem lookupField_eq_none_iff (o : List Field) (k : String) :
    lookupField o k = none ↔ k ∉ keysOf o := by
  induction o with
  | nil => simp [lookupField, keysOf]
  | cons kv rest ih =>
    obtain ⟨k', v'⟩ := kv
    by_cases h : k' = k
    · simp [lookupField, h, keysOf]
    · have h2 : ¬k = k' := fun hh => h hh.symm
      simp only [lookupField, if_neg h, ih, keysOf, List.map_cons, List.mem_cons]
      tauto

theorem lookupField_setField_self (o : List Field) (k : String) (v : JsVal)
    (s : JsVal) (h : lookupField o k = some s) :
    lookupField (setField o k v) k = some v := by
  induction o with
  | nil => simp [lookupField] at h
  | cons kv rest ih =>
    obtain ⟨k', v'⟩ := kv
    by_cases hk : k' = k
    · simp [setField, lookupField, hk]
    · simp [setField, lookupField, hk] at h ⊢
      exact ih h

theorem lookupField_setField_ne (o : List Field) (k' : String) (v : JsVal)
    (k : String) (h : k' ≠ k) :
    lookupField (setField o k' v) k = lookupField o k := by
  induction o with
  | nil => rfl
  | cons kv rest ih =>
    obtain ⟨k'', v'⟩ := kv
    by_cases hk : k'' = k'
    · subst hk
      simp [setField, lookupField, h]
    · by_cases hk2 : k'' = k <;> simp [setField, lookupField, hk, hk2, Ne.symm h, ih]

theorem lookupField_append_last_eq (o : List Field) (k : String) (v : JsVal)
    (h : lookupField o k = none) :
    lookupField (o ++ [(k, v)]) k = some v := by
  induction o with
  | nil => simp [lookupField]
  | cons kv rest ih =>
    obtain ⟨k', v'⟩ := kv
    by_cases hk : k' = k
    · simp [lookupField, hk] at h
    · simp [lookupField, hk] at h ⊢
      exact ih h

theorem lookupField_append_last_ne (o : List Field) (k' : String) (v : JsVal)
    (k : String) (h : k' ≠ k) :
    lookupField (o ++ [(k', v)]) k = lookupField o k := by
  induction o with
  | nil => simp [lookupField, h]
  | cons kv rest ih =>
    obtain ⟨k'', v'⟩ := kv
    by_cases hk : k'' = k <;> simp [lookupField, hk, ih]

theorem lookupField_mergeFields (p o : List Field) (k : String)
    (ho : (keysOf o).Nodup) (hp : (keysOf p).Nodup) :
    lookupField (mergeFields o p) k = combineAt (lookupField o k) (lookupField p k) := by
  induction p generalizing o with
  | nil =>
    cases h : lookupField o k <;> simp [mergeFields, lookupField, combineAt, h]
  | cons kf rest ih =>
    obtain ⟨k', f⟩ := kf
    simp only [keysOf, List.map_cons, List.nodup_cons] at hp
    obtain ⟨hk'rest, hrest⟩ := hp
    have hrestNone : lookupField rest k' = none :=
      (lookupField_eq_none_iff rest k').mpr (by simpa [keysOf] using hk'rest)
    cases hlk : lookupField o k' with
    | some s =>
      have hkeys : (keysOf (setField o k' (mergeVal s f))).Nodup := by
        rw [keysOf_setField]; exact ho
      have := ih (setField o k' (mergeVal s f)) hkeys hrest
      by_cases hk : k' = k
      · subst hk
        simp only [mergeFields, hlk]
        rw [this, lookupField_setField_self o k' (mergeVal s f) s hlk, hrestNone]
        simp [lookupField, combineAt, hlk]
      · simp only [mergeFields, hlk]
        rw [this, lookupField_setField_ne o k' (mergeVal s f) k hk]
        simp [lookupField, hk, combineAt]
    | none =>
      have hnotmem : k' ∉ keysOf o := (lookupField_eq_none_iff o k').mp hlk
      have hkeys : (keysOf (o ++ [(k', f)])).Nodup := by
        have hlist : keysOf (o ++ [(k', f)]) = keysOf o ++ [k'] := by simp [keysOf]
        rw [hlist, List.nodup_append]
        refine ⟨ho, List.nodup_singleton _, ?_⟩
        intro a ha hb
        simp only [List.mem_singleton] at hb
        subst hb
        exact hnotmem ha
      have := ih (o ++ [(k', f)]) hkeys hrest
      by_cases hk : k' = k
      · subst hk
        simp only [mergeFields, hlk]
        rw [this, lookupField_append_last_eq o k' f hlk, hrestNone]
        simp [lookupField, combineAt, hlk]
      · simp only [mergeFields, hlk]
        rw [this, lookupField_append_last_ne o k' f k hk]
        simp [lookupField, hk, combineAt]

/-! ## Lemmas relating the node-semver comparison to the specification order -/

theorem cmpNat_lt_iff (a b : Nat) : cmpNat a b = .lt ↔ a < b := by
  by_cases h : a < b
  · simp [cmpNat, h]
  · by_cases h2 : b < a
    · simp [cmpNat, h, h2]
    · simp [cmpNat, h, h2]

theorem cmpNat_eq_iff (a b : Nat) : cmpNat a b = .eq ↔ a = b := by
  by_cases h : a < b
  · simp [cmpNat, h]; omega
  · by_cases h2 : b < a
    · simp [cmpNat, h, h2]; omega
    · simp [cmpNat, h, h2]; omega

theorem ordThen_lt_iff (o o' : Ordering) :
    (o.then o') = .lt ↔ (o = .lt ∨ (o = .eq ∧ o' = .lt)) := by
  cases o <;> simp [Ordering.then]

theorem ordThen_eq_iff (o o' : Ordering) :
    (o.then o') = .eq ↔ (o = .eq ∧ o' = .eq) := by
  cases o <;> simp [Ordering.then]

theorem charsCompare_eq_iff (x y : List Char) : charsCompare x y = .eq ↔ x = y := by
  induction x generalizing y with
  | nil => cases y <;> simp [charsCompare]
  | cons a as ih =>
    cases y with
    | nil => simp [charsCompare]
    | cons b bs =>
      simp only [charsCompare]
      rcases lt_trichotomy a b with h | h | h
      · rw [if_pos h]
        simp [ne_of_lt h]
      · subst h
        rw [if_neg (lt_irrefl a), if_neg (lt_irrefl a)]
        simp [ih]
      · rw [if_neg (lt_asymm h), if_pos h]
        simp [(ne_of_lt h).symm]

theorem charsCompare_lt_iff (x y : List Char) : charsCompare x y = .lt ↔ charsLt x y := by
  induction x generalizing y with
  | nil => cases y <;> simp [charsCompare, charsLt]
  | cons a as ih =>
    cases y with
    | nil => simp [charsCompare, charsLt]
    | cons b bs =>
      simp only [charsCompare, charsLt]
      rcases lt_trichotomy a b with h | h | h
      · rw [if_pos h]
        simp [h]
      · subst h
        rw [if_neg (lt_irrefl a), if_neg (lt_irrefl a)]
        simp [ih, lt_irrefl]
      · rw [if_neg (lt_asymm h), if_pos h]
        simp [lt_asymm h, (ne_of_lt h).symm]

theorem comparePreId_eq_iff (a b : PreId) : comparePreId a b = .eq ↔ a = b := by
  cases a <;> cases b <;>
    simp [comparePreId, cmpNat_eq_iff, charsCompare_eq_iff]

theorem comparePreId_lt_iff (a b : PreId) : comparePreId a b = .lt ↔ preIdLtSpec a b := by
  cases a <;> cases b <;>
    simp [comparePreId, preIdLtSpec, cmpNat_lt_iff, charsCompare_lt_iff]

theorem comparePreLists_lt_iff (p q : List PreId) :
    comparePreLists p q = .lt ↔ specIdsLt p q := by
  induction p generalizing q with
  | nil => cases q <;> simp [comparePreLists, specIdsLt]
  | cons a as ih =>
    cases q with
    | nil => simp [comparePreLists, specIdsLt]
    | cons b bs =>
      simp only [comparePreLists, specIdsLt]
      cases h : comparePreId a b with
      | eq =>
        have hab : a = b := (comparePreId_eq_iff a b).mp h
        subst hab
        have hnlt : ¬preIdLtSpec a a := fun hl => by
          rw [(comparePreId_lt_iff a a).mpr hl] at h
          cases h
        simp [hnlt, ih]
      | lt =>
        simp [(comparePreId_lt_iff a b).mp h]
      | gt =>
        have hnlt : ¬preIdLtSpec a b := fun hl => by
          rw [(comparePreId_lt_iff a b).mpr hl] at h
          cases h
        have hne : a ≠ b := fun he => by
          rw [(comparePreId_eq_iff a b).mpr he] at h
          cases h
        simp [hnlt, hne]

theorem comparePre_lt_iff (p q : List PreId) :
    comparePre p q = .lt ↔ specPreLt p q := by
  cases p with
  | nil => cases q <;> simp [comparePre, specPreLt]
  | cons a as =>
    cases q with
    | nil => simp [comparePre, specPreLt]
    | cons b bs =>
      show comparePreLists (a :: as) (b :: bs) = .lt ↔ specIdsLt (a :: as) (b :: bs)
      exact comparePreLists_lt_iff (a :: as) (b :: bs)

theorem semverLtB_iff_specLt (a b : SemVer) : semverLtB a b = true ↔ specLt a b := by
  have h1 : semverLtB a b = true ↔ semverCompare a b = .lt := by
    cases h : semverCompare a b <;> (simp only [semverLtB, h]; decide)
  rw [h1]
  simp only [semverCompare, compareMain, ordThen_lt_iff, ordThen_eq_iff,
    cmpNat_lt_iff, cmpNat_eq_iff, comparePre_lt_iff]
  simp only [specLt]
  tauto

/-! ## Remaining support lemmas -/

theorem startsList_append_self (l t : List Char) : startsList l (l ++ t) = true := by
  induction l with
  | nil => rfl
  | cons a as ih => simp [startsList, ih]

theorem foldl_filter_eq {α β : Type} (p : α → Bool) (f : β → α → β) (l : List α)
    (init : β) :
    (l.filter p).foldl f init = l.foldl (fun acc x => if p x then f acc x else acc) init := by
  induction l generalizing init with
  | nil => rfl
  | cons a l ih => by_cases h : p a <;> simp [h, ih]

theorem loadFilesFrom_all_absent (fs : FileSystem) (conf : List Field)
    (files : List String) (h : ∀ f ∈ files, fs f = none) :
    loadFilesFrom fs conf files = .ok conf := by
  induction files with
  | nil => rfl
  | cons f rest ih =>
    have hf : fs f = none := h f (List.mem_cons_self f rest)
    simp only [loadFilesFrom, hf]
    exact ih (fun g hg => h g (List.mem_cons_of_mem f hg))

theorem find?_first_eligible (pre post : List Release) (r : Release)
    (hpre : ∀ q ∈ pre, eligibleRelease q = false) (hr : eligibleRelease r = true) :
    (pre ++ r :: post).find? eligibleRelease = some r := by
  induction pre with
  | nil => simp [List.find?, hr]
  | cons q qs ih =>
    have hq : eligibleRelease q = false := hpre q (List.mem_cons_self q qs)
    simp only [List.cons_append, List.find?, hq]
    exact ih (fun q' hq' => hpre q' (List.mem_cons_of_mem q hq'))

/-! ## The claims -/

/-- C1, counterexample to the claim as stated.  The claim says that when the
two values at a key are not both sequences, the overlay value wins for
scalars; but the lodash customizer fires whenever the BASE value is an array,
so merging the scalar `3` onto the array `[1, 2]` yields `[1, 2, 3]` rather
than `3`. -/
theorem merge_scalar_onto_array_counterexample :
    lookupField (merge [("k", JsVal.arr [.num 1, .num 2])] [("k", JsVal.num 3)]) "k"
        = some (JsVal.arr [.num 1, .num 2, .num 3]) ∧
    some (JsVal.arr [.num 1, .num 2, .num 3]) ≠ some (JsVal.num 3) := by
  refine ⟨rfl, fun h => ?_⟩
  injection h with h'
  cases h'

/-- C1, amended: for configuration objects with duplicate-free keys, the
merged object maps every key to the combination of the two values at that
key, where the combination is: the deduplicated concatenation of the base
elements and the overlay value (spread when it is a sequence, appended as a
single element otherwise) whenever the BASE value is a sequence; the
recursive merge when both values are objects; the base value when the
overlay value is `undefined` (and the base is not a sequence); and the
overlay value otherwise — in particular the overlay wins for scalars only
when the base value is not a sequence. -/
theorem merge_per_key_characterization :
    (∀ (o p : List Field) (k : String), (keysOf o).Nodup → (keysOf p).Nodup →
        lookupField (merge o p) k = combineAt (lookupField o k) (lookupField p k)) ∧
    (∀ (xs : List JsVal) (f : JsVal),
        mergeVal (.arr xs) f = .arr (uniqJs (xs ++ toElems f))) ∧
    (∀ (o p : List Field), mergeVal (.obj o) (.obj p) = .obj (mergeFields o p)) ∧
    (∀ (s : JsVal), isArrV s = false → mergeVal s .undef = s) ∧
    (∀ (s f : JsVal), isArrV s = false → isObjV f = false → f ≠ .undef →
        mergeVal s f = f) ∧
    (∀ (s : JsVal) (p : List Field), isArrV s = false → isObjV s = false →
        mergeVal s (.obj p) = .obj p) := by
  refine ⟨fun o p k ho hp => lookupField_mergeFields p o k ho hp,
    fun xs f => by cases f <;> rfl, fun o p => rfl, ?_, ?_, ?_⟩
  · intro s hs
    cases s <;> try rfl
    simp [isArrV] at hs
  · intro s f hs hf hu
    cases s <;> cases f <;> try rfl
    all_goals simp_all [isArrV, isObjV]
  · intro s p hs hs2
    cases s <;> try rfl
    all_goals simp_all [isArrV, isObjV]

/-- C1, witness for the amended characterization at a concrete input. -/
theorem merge_per_key_characterization_witness :
    lookupField (merge [("a", JsVal.num 1)] [("a", JsVal.num 2), ("b", JsVal.str ("x"))]) "a"
      = combineAt (lookupField [("a", JsVal.num 1)] "a")
          (lookupField [("a", JsVal.num 2), ("b", JsVal.str ("x"))] "a") :=
  merge_per_key_characterization.1 [("a", JsVal.num 1)]
    [("a", JsVal.num 2), ("b", JsVal.str ("x"))] "a" (by decide) (by decide)

/-- C2, counterexample to the claim as stated.  The claim (and the
specification) say the key is the camel case of the variable name after
removing the first occurrence of the prefix, but the source uses
`_.trimStart(key, prefix)`, which strips the longest leading run of
characters DRAWN FROM the prefix (treated as a character set): for the
variable `LANDO_DOMAIN` with prefix `LANDO_` the code produces the key
`main` (trimming `LANDO_DO`), not `domain`. -/
theorem loadEnvs_trimStart_counterexample :
    loadEnvs [("LANDO_DOMAIN", "x")] "LANDO_" = [("main", "x")] ∧
    camelCase (removeFirstSub ("LANDO_DOMAIN") "LANDO_") = "domain" ∧
    ("main" : String) ≠ "domain" :=
  ⟨rfl, rfl, by decide⟩

/-- C2, amended: `loadEnvs` selects exactly the variables whose name contains
the prefix as a substring and maps each selected variable, in environment
order with later same-key entries overwriting earlier ones in place, to the
key obtained by camel-casing the name after stripping the longest leading
run of characters that occur in the prefix (the `_.trimStart` character-set
semantics), with the raw string value unchanged. -/
theorem loadEnvs_filter_characterization (env : List (String × String)) (pfx : String) :
    loadEnvs env pfx = loadEnvsFiltered env pfx := by
  unfold loadEnvs loadEnvsFiltered
  rw [foldl_filter_eq]

/-- C3, counterexample to the claim as stated at the freshness boundary.
The claim says `fetch` returns true when `now >= record.expires`, but the
source returns `!(expires >= now)`, which at `now = expires` is `false`:
a record expiring exactly now is still treated as fresh. -/
theorem fetch_boundary_counterexample :
    (1000 : Int) ≥ 1000 ∧ fetch 1000 (some ⟨EVal.num 1000⟩) = false :=
  ⟨le_refl 1000, rfl⟩

/-- C3, amended: with the single `now` read the call performs, `fetch`
returns true when given no cached record, and for a record with numeric
`expires` it returns true exactly when `now` is strictly greater than
`expires` (so a record with `expires = now` is still fresh); in particular
the specification examples hold: `expires = now - 1` needs a refresh and
`expires = now + 100000` does not. -/
theorem fetch_expiry_characterization :
    (∀ now : Int, fetch now none = true) ∧
    (∀ (now e : Int), fetch now (some ⟨EVal.num e⟩) = decide (e < now)) ∧
    (∀ now : Int, fetch now (some ⟨EVal.num (now - 1)⟩) = true) ∧
    (∀ now : Int, fetch now (some ⟨EVal.num (now + 100000)⟩) = false) := by
  refine ⟨fun _ => rfl, fun now e => ?_, fun now => ?_, fun now => ?_⟩
  · simp only [fetch, jsGE, jsToNum]
    by_cases h : now ≤ e
    · simp [h]
    · simp [h]
      omega
  · simp [fetch, jsGE, jsToNum]
  · simp [fetch, jsGE, jsToNum]

/-- C4: on any failure of the remote release call, `refresh` does not raise —
in the embedding it is a total function whose failure branch is the `.catch`
handler — and it returns the record built from the current version with the
leading `v` characters stripped, an empty URL, and an expiry 24 hours
(86400000 ms) after the single `now` read of that branch. -/
theorem refresh_failure_fallback (now : Int) (version : String) :
    refresh now version (.error ()) =
      { version := trimStartChars version ("v"), url := "", expires := now + 86400000 } :=
  rfl

/-- C5: on a successful feed response, `refresh` selects the first release
that is neither a draft nor a pre-release and builds the record from its tag
(leading `v` characters stripped) and its web URL with expiry 24 hours from
now; when no release of the listing is eligible, the version falls back to
the current version (stripped) and the URL to the empty string. -/
theorem refresh_selects_first_eligible :
    (∀ (now : Int) (version : String) (pre post : List Release) (r : Release),
        (∀ q ∈ pre, eligibleRelease q = false) → eligibleRelease r = true →
        refresh now version (.ok (pre ++ r :: post)) =
          { version := trimStartChars r.tag_name ("v"), url := r.html_url,
            expires := now + 86400000 }) ∧
    (∀ (now : Int) (version : String) (rels : List Release),
        (∀ q ∈ rels, eligibleRelease q = false) →
        refresh now version (.ok rels) =
          { version := trimStartChars version ("v"), url := "",
            expires := now + 86400000 }) := by
  constructor
  · intro now version pre post r hpre hr
    simp only [refresh, find?_first_eligible pre post r hpre hr]
  · intro now version rels hrels
    have : rels.find? eligibleRelease = none := by
      rw [List.find?_eq_none]
      intro q hq
      simp [hrels q hq]
    simp only [refresh, this]

/-- C5, witness: a feed with one non-draft, non-prerelease release tagged
`v3.1.0` yields that release's data, per the specification example. -/
theorem refresh_selects_first_eligible_witness :
    refresh 1700000000000 ("3.0.0")
        (.ok [⟨"v3.1.0", "https://github.com/lando/lando/releases/tag/v3.1.0", false, false⟩]) =
      { version := "3.1.0", url := "https://github.com/lando/lando/releases/tag/v3.1.0",
        expires := 1700000000000 + 86400000 } :=
  refresh_selects_first_eligible.1 1700000000000 ("3.0.0") [] []
    ⟨"v3.1.0", "https://github.com/lando/lando/releases/tag/v3.1.0", false, false⟩
    (by intro q hq; cases hq) rfl

/-- C6, counterexample to the claim as stated: `exports.merge` is
`_.mergeWith(old, fresh, ...)`, which merges INTO its first argument and
returns it, so after `merge(base, overlay)` the base object observably holds
the merged value — merging `{a: 1}` onto `{}` leaves the base equal to
`{a: 1}`, not to its pre-call value `{}`. -/
theorem merge_mutates_base_counterexample :
    mergeBaseAfter [] [("a", JsVal.num 1)] ≠ ([] : List Field) := by
  intro h
  exact List.noConfusion (show ([("a", JsVal.num 1)] : List Field) = [] from h)

/-- C6, amended: `merge` mutates its base argument — after the call the base
holds exactly the merged result (the returned value aliases the base), and
this is observable (there are inputs on which the base changes) — while the
overlay argument is not mutated. -/
theorem merge_mutation_characterization :
    (∀ old fresh : List Field, mergeBaseAfter old fresh = merge old fresh) ∧
    (∀ old fresh : List Field, mergeOverlayAfter old fresh = fresh) ∧
    (∃ old fresh : List Field, mergeBaseAfter old fresh ≠ old) := by
  refine ⟨fun _ _ => rfl, fun _ _ => rfl, [], [("b", JsVal.str ("y"))], fun h => ?_⟩
  exact List.noConfusion (show ([("b", JsVal.str ("y"))] : List Field) = [] from h)

/-- C7: `loadFiles` starts from the empty configuration and folds the files
in order: a missing file is skipped, a parsed file is merged onto the
accumulator, and a file that exists but fails to parse aborts the whole
operation with that parse error; in particular the empty file list and a
list of only missing files both produce the empty configuration. -/
theorem loadFiles_skip_and_propagate (fs : FileSystem) :
    loadFiles fs [] = .ok [] ∧
    (∀ files : List String, (∀ f ∈ files, fs f = none) → loadFiles fs files = .ok []) ∧
    (∀ (conf : List Field) (file : String) (rest : List String), fs file = none →
        loadFilesFrom fs conf (file :: rest) = loadFilesFrom fs conf rest) ∧
    (∀ (conf doc : List Field) (file : String) (rest : List String),
        fs file = some (.ok doc) →
        loadFilesFrom fs conf (file :: rest) = loadFilesFrom fs (merge conf doc) rest) ∧
    (∀ (conf : List Field) (file : String) (rest : List String) (e : String),
        fs file = some (.error e) →
        loadFilesFrom fs conf (file :: rest) = .error e) := by
  refine ⟨rfl, fun files h => loadFilesFrom_all_absent fs [] files h, ?_, ?_, ?_⟩
  · intro conf file rest hf
    simp only [loadFilesFrom, hf]
  · intro conf doc file rest hf
    simp only [loadFilesFrom, hf]
  · intro conf file rest e hf
    simp only [loadFilesFrom, hf]

/-- C7, witness: a filesystem with one unparsable file propagates the parse
error, and absent files are skipped. -/
theorem loadFiles_skip_and_propagate_witness :
    loadFilesFrom (fun p => if p = "bad.yml" then some (.error ("parse error")) else none)
        [] ["bad.yml"] = .error ("parse error") :=
  (loadFiles_skip_and_propagate
      (fun p => if p = "bad.yml" then some (.error ("parse error")) else none)).2.2.2.2
    [] "bad.yml" [] "parse error" (by simp)

/-- C8: `updateAvailable` is `semver.lt`; for version strings both accepted
by the semver parser it returns true exactly when the first version is
strictly below the second in the specification order (major, then minor,
then patch, then the pre-release precedence rules), and the three examples
of the specification evaluate as stated.  An invalid version string makes
the library throw, which the embedding renders as `none`. -/
theorem updateAvailable_iff_specLt :
    (∀ (v1 v2 : String) (a b : SemVer), parseSemver v1 = some a →
        parseSemver v2 = some b →
        (updateAvailable v1 v2 = some true ↔ specLt a b)) ∧
    updateAvailable ("3.0.0") "3.0.1" = some true ∧
    updateAvailable ("3.0.1") "3.0.0" = some false ∧
    updateAvailable ("3.0.0") "3.0.0" = some false := by
  refine ⟨?_, rfl, rfl, rfl⟩
  intro v1 v2 a b h1 h2
  simp [updateAvailable, h1, h2, semverLtB_iff_specLt]

/-- C8, witness: the concrete pair of the specification example, with the
parse hypotheses discharged on concrete version strings. -/
theorem updateAvailable_iff_specLt_witness : specLt ⟨3, 0, 0, []⟩ ⟨3, 0, 1, []⟩ :=
  (updateAvailable_iff_specLt.1 ("3.0.0") "3.0.1" ⟨3, 0, 0, []⟩ ⟨3, 0, 1, []⟩
    rfl rfl).mp rfl

/-- C9: `updatePath` prepends the directory with the delimiter exactly when
the path variable does not already start with it, the result always starts
with the directory, and the operation is idempotent — a second call returns
the first result unchanged, leaving the directory once at the front. -/
theorem updatePath_idempotent (delim dir pv : String) :
    updatePath delim dir (updatePath delim dir pv) = updatePath delim dir pv ∧
    startsList dir.toList (updatePath delim dir pv).toList = true ∧
    (startsList dir.toList pv.toList = false →
        updatePath delim dir pv = dir ++ delim ++ pv) ∧
    (startsList dir.toList pv.toList = true → updatePath delim dir pv = pv) := by
  have hstart : startsList dir.toList (dir ++ delim ++ pv).toList = true := by
    have hl : (dir ++ delim ++ pv).toList = dir.toList ++ (delim.toList ++ pv.toList) := by
      simp [String.toList]
    rw [hl]
    exact startsList_append_self dir.toList (delim.toList ++ pv.toList)
  cases hb : startsList dir.toList pv.toList with
  | true =>
    have e : updatePath delim dir pv = pv := by
      unfold updatePath
      rw [hb]
      simp
    rw [e, e]
    refine ⟨rfl, hb, ?_, fun _ => rfl⟩
    intro hc
    exact Bool.noConfusion hc
  | false =>
    have e : updatePath delim dir pv = dir ++ delim ++ pv := by
      unfold updatePath
      rw [hb]
      simp
    have e2 : updatePath delim dir (dir ++ delim ++ pv) = dir ++ delim ++ pv := by
      unfold updatePath
      rw [hstart]
      simp
    rw [e, e2]
    refine ⟨rfl, hstart, fun _ => rfl, ?_⟩
    intro hc
    exact Bool.noConfusion hc

/-- C9, witness: a concrete directory and path variable, exercising the
prepend branch. -/
theorem updatePath_idempotent_witness :
    updatePath (":") "/x/bin" "/usr/bin" = "/x/bin" ++ ":" ++ "/usr/bin" :=
  (updatePath_idempotent (":") "/x/bin" "/usr/bin").2.2.1 (by decide)

/-- C10, counterexample to the claim as stated: a record whose `expires`
field is a STRING of digits is not a numeric field, yet JS coerces it for
the relational comparison, so `fetch` can return false for it — the claim
that every record lacking a numeric `expires` yields true fails. -/
theorem fetch_numeric_string_counterexample :
    fetch 1700000000000 (some ⟨EVal.str ("2000000000000000")⟩) = false := by
  decide

/-- C10, amended: `fetch` is total on malformed records, and it returns true
for every record whose `expires` value coerces to NaN under the JS `ToNumber`
coercion (an absent or undefined field, or a string outside the JS numeric
string grammar); a malformed value that does coerce to a number or an
infinity — a plain or exponent-notation numeric string, or `Infinity` — is
compared numerically instead and can yield false, as the second and third
conjuncts demonstrate on concrete unexpired values. -/
theorem fetch_nan_expires_true :
    (∀ (now : Int) (r : CachedRecord), jsToNum r.expires = none →
        fetch now (some r) = true) ∧
    fetch 1700000000000 (some ⟨EVal.str ("1e15")⟩) = false ∧
    fetch 1700000000000 (some ⟨EVal.str ("Infinity")⟩) = false := by
  refine ⟨fun now r h => by simp [fetch, jsGE, h], by decide, by decide⟩

/-- C10, witness: a record whose `expires` is a non-numeric string is
refreshed. -/
theorem fetch_nan_expires_true_witness :
    fetch 1700000000000 (some ⟨EVal.str ("soon")⟩) = true :=
  fetch_nan_expires_true.1 1700000000000 ⟨EVal.str ("soon")⟩ rfl

end Lando
